import Mathlib

/-!
Shallow embedding of the hour-logger application's computation core:
the duration calculator (`calculateHoursForLog`), the period aggregator
(the `weeklyHours` memo, here `aggregate`), and the filter/sort view
(the `filteredAndSortedLogs` memo, here `view`).

JavaScript numbers are modelled as rationals, `Date` values as Gregorian
civil dates (year/month/day triples), and the date-fns calls
(`startOfWeek`, `eachDayOfInterval`, `isWeekend`, `format`, `parseISO`,
`differenceInMinutes` on `parse`d "HH:mm" strings) by the corresponding
Gregorian-calendar arithmetic.  `Array.prototype.sort` with a comparator
is modelled as a stable sort with respect to the comparator's
"comparator result at most zero" relation, and a JavaScript `Set` by a
first-occurrence duplicate-free list.
-/

namespace HourLogger

/-- Value of a decimal digit character. -/
def digitVal (c : Char) : ℕ := c.toNat - 48

/-- The decimal digit character for a value below ten. -/
def digitChar (n : ℕ) : Char := Char.ofNat (48 + n)

/-- Decides whether a character is a decimal digit. -/
def isDig (c : Char) : Bool := 48 ≤ c.toNat && c.toNat ≤ 57

/-- Two-character zero-padded decimal rendering (as used by the
date-fns format specifiers "MM" and "dd" for in-range values). -/
def pad2 (n : ℕ) : String := ⟨[digitChar (n / 10), digitChar (n % 10)]⟩

/-- Four-character zero-padded decimal rendering (as used by the
date-fns format specifier "yyyy" for in-range values). -/
def pad4 (n : ℕ) : String :=
  ⟨[digitChar (n / 1000), digitChar (n / 100 % 10), digitChar (n / 10 % 10), digitChar (n % 10)]⟩

/-- Strict lexicographic comparison of character lists, the order that
JavaScript string comparison (`<`, and `localeCompare` on these
all-ASCII strings) uses. -/
def lexLt : List Char → List Char → Bool
  | [], [] => false
  | [], _ :: _ => true
  | _ :: _, [] => false
  | a :: as, b :: bs => if a < b then true else if b < a then false else lexLt as bs

/-- Strict lexicographic comparison of strings. -/
def strLt (a b : String) : Bool := lexLt a.data b.data

/-- A Gregorian civil date: the calendar triple a JavaScript `Date`
denotes (time-of-day is irrelevant to this program's logic). -/
structure CivilDate where
  y : ℕ
  m : ℕ
  d : ℕ
deriving DecidableEq, Repr

/-- Gregorian leap-year test. -/
def isLeap (y : ℕ) : Bool := (y % 4 == 0 && y % 100 != 0) || y % 400 == 0

/-- Number of days in a month of a given year. -/
def daysInMonth (y m : ℕ) : ℕ :=
  match m with
  | 1 => 31 | 2 => if isLeap y then 29 else 28 | 3 => 31 | 4 => 30 | 5 => 31
  | 6 => 30 | 7 => 31 | 8 => 31 | 9 => 30 | 10 => 31 | 11 => 30 | 12 => 31
  | _ => 0

/-- Day offset of the start of each month within the March-based year
used by the standard civil-from-days / days-from-civil conversion. -/
def monthOffset (m : ℕ) : ℕ :=
  match m with
  | 1 => 306 | 2 => 337 | 3 => 0 | 4 => 31 | 5 => 61 | 6 => 92 | 7 => 122
  | 8 => 153 | 9 => 184 | 10 => 214 | 11 => 245 | 12 => 275
  | _ => 0

/-- The March-based year of a civil date (January and February count
towards the previous year). -/
def yearShifted (t : CivilDate) : ℕ := if t.m ≤ 2 then t.y - 1 else t.y

/-- Linear day number of a civil date (day 306 is 0001-01-01); this is
the standard Gregorian days-from-civil computation, an order-preserving
model of the JavaScript `Date` timestamp. -/
def days0 (t : CivilDate) : ℕ :=
  let yy := yearShifted t
  365 * yy + yy / 4 - yy / 100 + yy / 400 + monthOffset t.m + (t.d - 1)

/-- Day of the week of a civil date, numbered like JavaScript
`Date.prototype.getDay`: 0 is Sunday, 6 is Saturday. -/
def dayOfWeek (t : CivilDate) : ℕ := (days0 t + 3) % 7

/-- Weekend test (date-fns `isWeekend`): Saturday or Sunday. -/
def isWeekend (t : CivilDate) : Bool := dayOfWeek t == 0 || dayOfWeek t == 6

/-- The calendar day after a given civil date. -/
def nextDay (t : CivilDate) : CivilDate :=
  if t.d < daysInMonth t.y t.m then ⟨t.y, t.m, t.d + 1⟩
  else if t.m < 12 then ⟨t.y, t.m + 1, 1⟩
  else ⟨t.y + 1, 1, 1⟩

/-- The calendar day before a given civil date. -/
def prevDay (t : CivilDate) : CivilDate :=
  if 1 < t.d then ⟨t.y, t.m, t.d - 1⟩
  else if 1 < t.m then ⟨t.y, t.m - 1, daysInMonth t.y (t.m - 1)⟩
  else ⟨t.y - 1, 12, 31⟩

/-- Advance a civil date by a number of days (date-fns `addDays`). -/
def addDays : ℕ → CivilDate → CivilDate
  | 0, t => t
  | k + 1, t => nextDay (addDays k t)

/-- Move a civil date back by a number of days (date-fns `subDays`). -/
def subDays : ℕ → CivilDate → CivilDate
  | 0, t => t
  | k + 1, t => prevDay (subDays k t)

/-- Monday-starting week begin (date-fns
`startOfWeek(today, { weekStartsOn: 1 })`). -/
def startOfWeekMon (t : CivilDate) : CivilDate := subDays ((dayOfWeek t + 6) % 7) t

/-- The seven days of the Monday-starting week containing a date
(date-fns `eachDayOfInterval` from `startOfWeek` to `endOfWeek`). -/
def weekInterval (t : CivilDate) : List CivilDate :=
  (List.range 7).map fun i => addDays i (startOfWeekMon t)

/-- The five Monday-through-Friday days of the Monday-starting week
containing a date. -/
def weekdayDates (t : CivilDate) : List CivilDate :=
  (List.range 5).map fun i => addDays i (startOfWeekMon t)

/-- Renders a civil date as a "yyyy-MM-dd" string (date-fns
`format(day, "yyyy-MM-dd")` for in-range dates). -/
def formatDate (t : CivilDate) : String := pad4 t.y ++ "-" ++ pad2 t.m ++ "-" ++ pad2 t.d

/-- Reads the year, month and day fields of a "yyyy-MM-dd" string
(the civil triple denoted by date-fns `parseISO`); junk on strings of
any other shape. -/
def parseDateFields (s : String) : CivilDate :=
  match s.data with
  | [c1, c2, c3, c4, _, c5, c6, _, c7, c8] =>
    ⟨digitVal c1 * 1000 + digitVal c2 * 100 + digitVal c3 * 10 + digitVal c4,
     digitVal c5 * 10 + digitVal c6,
     digitVal c7 * 10 + digitVal c8⟩
  | _ => ⟨0, 0, 0⟩

/-- Well-formedness of a "yyyy-MM-dd" string: ten characters, digits
and dashes in place, month and day in calendar range, year at least 1. -/
def validDateStr (s : String) : Bool :=
  match s.data with
  | [c1, c2, c3, c4, d1, c5, c6, d2, c7, c8] =>
    isDig c1 && isDig c2 && isDig c3 && isDig c4 && d1 == '-' &&
    isDig c5 && isDig c6 && d2 == '-' && isDig c7 && isDig c8 &&
    (let t := parseDateFields s
     1 ≤ t.y && 1 ≤ t.m && t.m ≤ 12 && 1 ≤ t.d && t.d ≤ daysInMonth t.y t.m)
  | _ => false

/-- Calendar validity of a civil triple. -/
def ValidCivil (t : CivilDate) : Prop :=
  1 ≤ t.y ∧ 1 ≤ t.m ∧ t.m ≤ 12 ∧ 1 ≤ t.d ∧ t.d ≤ daysInMonth t.y t.m

instance : DecidablePred ValidCivil := fun t =>
  inferInstanceAs (Decidable (1 ≤ t.y ∧ 1 ≤ t.m ∧ t.m ≤ 12 ∧ 1 ≤ t.d ∧ t.d ≤ daysInMonth t.y t.m))

/-- Lexicographic (chronological) strict order on civil triples. -/
def tripleLt (t u : CivilDate) : Prop :=
  t.y < u.y ∨ (t.y = u.y ∧ (t.m < u.m ∨ (t.m = u.m ∧ t.d < u.d)))

/-- One log entry, as stored in the `logs` collection.  `timeIn` and
`timeOut` are optional "HH:mm" strings (`none` models an absent field,
`some ""` an empty one — both are falsy in the source's guard). -/
structure LogEntry where
  id : Option String := none
  date : String
  timeIn : Option String
  timeOut : Option String
  breakMinutes : ℤ
deriving DecidableEq, Repr

/-- JavaScript falsiness of an optional string: absent or empty. -/
def falsyStr : Option String → Bool
  | none => true
  | some s => s.data.isEmpty

/-- Minute-of-day denoted by an "HH:mm" string (the whole-minute
distance from midnight that `parse(s, "HH:mm", ref)` produces); junk on
strings of any other shape. -/
def parseClock (s : String) : ℤ :=
  match s.data with
  | [h1, h2, _, m1, m2] =>
    ((digitVal h1 * 10 + digitVal h2) * 60 + (digitVal m1 * 10 + digitVal m2) : ℕ)
  | _ => 0

/-- Renders an hour/minute pair as an "HH:mm" clock string. -/
def clockStr (h m : ℕ) : String :=
  ⟨[digitChar (h / 10), digitChar (h % 10), ':', digitChar (m / 10), digitChar (m % 10)]⟩

/-- The duration calculator `calculateHoursForLog`: zero when either
clock time is falsy, otherwise the difference in minutes of the two
clock times minus the break, divided by sixty. -/
def calculateHoursForLog (log : LogEntry) : ℚ :=
  if falsyStr log.timeIn || falsyStr log.timeOut then 0
  else
    let timeInMin := parseClock (log.timeIn.getD "")
    let timeOutMin := parseClock (log.timeOut.getD "")
    let diff := timeOutMin - timeInMin
    ((diff - log.breakMinutes : ℤ) : ℚ) / 60

/-- First log entry whose `date` field equals the given string
(`logs.find(log => log.date === s)`). -/
def findLogFor (logs : List LogEntry) (s : String) : Option LogEntry :=
  logs.find? fun log => log.date == s

/-- Hours contributed by a calendar day: the hours of the first log
entry dated on it, zero when there is none. -/
def dayHours (logs : List LogEntry) (t : CivilDate) : ℚ :=
  match findLogFor logs (formatDate t) with
  | some l => calculateHoursForLog l
  | none => 0

/-- Rounding to two decimal places (`parseFloat(x.toFixed(2))`). -/
def round2 (q : ℚ) : ℚ := (round (q * 100) : ℤ) / 100

/-- Result of one run of the aggregation memo: the two displayed
totals and the holiday-carry value after the run (the run mutates the
carry in one branch). -/
structure AggResult where
  dailyHours : ℚ
  weeklyHours : ℚ
  carryAfter : ℚ
deriving Repr

/-- The period aggregator: the body of the `weeklyHours` memo, with
the component state it reads (`manualWeeklyHours` as `override`,
`savedHolidayHours` as `carry`) passed explicitly and the
`setSavedHolidayHours(0)` mutation reported as `carryAfter`. -/
def aggregate (logs : List LogEntry) (today : CivilDate) (override : Option ℚ) (carry : ℚ) :
    AggResult :=
  let todayStr := formatDate today
  let daily :=
    match findLogFor logs todayStr with
    | some l => calculateHoursForLog l
    | none => 0
  match override with
  | some m => ⟨daily, m, carry⟩
  | none =>
    let weekly := (weekInterval today).foldl
      (fun acc day =>
        if isWeekend day then acc
        else
          match findLogFor logs (formatDate day) with
          | some l => acc + calculateHoursForLog l
          | none => acc) 0
    let carryAfter := if logs.length == 0 && decide (0 < carry) then 0 else carry
    let finalWeekly := if 0 < logs.length then weekly + carry else 0
    ⟨daily, round2 finalWeekly, carryAfter⟩

/-- The four filter fields; the empty string is an unset filter, as in
the source's `useState("")` defaults. -/
structure Filters where
  year : String := ""
  month : String := ""
  startDate : String := ""
  endDate : String := ""

/-- The two sort directions of the history table. -/
inductive SortOrder
  | asc
  | desc
deriving DecidableEq

/-- Year rendered from a log's date string
(`format(parseISO(log.date), "yyyy")`). -/
def yearStrOf (s : String) : String := pad4 (parseDateFields s).y

/-- Month rendered from a log's date string
(`format(parseISO(log.date), "MM")`). -/
def monthStrOf (s : String) : String := pad2 (parseDateFields s).m

/-- The filtering predicate of the history view: the source's chain of
early-`false` returns, one per set filter condition. -/
def keepLog (f : Filters) (log : LogEntry) : Bool :=
  if !f.year.data.isEmpty && yearStrOf log.date != f.year then false
  else if !f.month.data.isEmpty && monthStrOf log.date != f.month then false
  else if !f.startDate.data.isEmpty && strLt log.date f.startDate then false
  else if !f.endDate.data.isEmpty && strLt f.endDate log.date then false
  else true

/-- Numeric value of a log's date string (`new Date(a.date).getTime()`,
up to the constant day-length factor). -/
def dateValue (s : String) : ℕ := days0 (parseDateFields s)

/-- The "comparator at most zero" relation of the history sort: the
ascending comparator subtracts numeric date values, the descending one
compares the date strings lexicographically the other way round. -/
def sortRel (o : SortOrder) (a b : LogEntry) : Prop :=
  match o with
  | .asc => dateValue a.date ≤ dateValue b.date
  | .desc => strLt a.date b.date = false

instance : ∀ o, DecidableRel (sortRel o)
  | .asc, a, b => inferInstanceAs (Decidable (dateValue a.date ≤ dateValue b.date))
  | .desc, a, b => inferInstanceAs (Decidable (strLt a.date b.date = false))

/-- Descending string order, the "comparator at most zero" relation of
`(a, b) => b.localeCompare(a)`. -/
def strGe (a b : String) : Prop := strLt a b = false

/-- Ascending string order, the "comparator at most zero" relation of
`(a, b) => a.localeCompare(b)`. -/
def strLe (a b : String) : Prop := strLt b a = false

instance : DecidableRel strGe := fun a b => inferInstanceAs (Decidable (strLt a b = false))

instance : DecidableRel strLe := fun a b => inferInstanceAs (Decidable (strLt b a = false))

/-- Appends a string to a list unless already present: one insertion
into a JavaScript `Set` viewed as its iteration order. -/
def insertIfNew (acc : List String) (s : String) : List String :=
  if s ∈ acc then acc else acc ++ [s]

/-- First-occurrence duplicate-free list: `Array.from` of the `Set`
the source builds by iterating over all logs. -/
def distinctList (l : List String) : List String := l.foldl insertIfNew []

/-- Result of the history-view memo: the visible ordered entries and
the distinct years and months offered by the filter dropdowns. -/
structure ViewResult where
  visible : List LogEntry
  years : List String
  months : List String

/-- The filter/sort view: the body of the `filteredAndSortedLogs` memo. -/
def view (logs : List LogEntry) (o : SortOrder) (f : Filters) : ViewResult :=
  let years := distinctList (logs.map fun log => yearStrOf log.date)
  let months := distinctList (logs.map fun log => monthStrOf log.date)
  let filtered := logs.filter (keepLog f)
  let sorted := filtered.insertionSort (sortRel o)
  ⟨sorted, years.insertionSort strGe, months.insertionSort strLe⟩

/-- Keeps the first log entry for each date and drops the rest,
preserving order: the entries the aggregator's `find` calls can see. -/
def dedupByDateFrom (seen : List String) : List LogEntry → List LogEntry
  | [] => []
  | l :: rest =>
    if l.date ∈ seen then dedupByDateFrom seen rest
    else l :: dedupByDateFrom (l.date :: seen) rest

/-- Keeps the first log entry of each date in collection order. -/
def dedupByDate (logs : List LogEntry) : List LogEntry := dedupByDateFrom [] logs

section CharLemmas

theorem char_toNat_inj {a b : Char} (h : a.toNat = b.toNat) : a = b :=
  Char.ext (UInt32.ext h)

theorem char_lt_iff_toNat (a b : Char) : a < b ↔ a.toNat < b.toNat :=
  ⟨fun h => h, fun h => h⟩

theorem digitChar_toNat {n : ℕ} (h : n < 10) : (digitChar n).toNat = 48 + n := by
  interval_cases n <;> decide

theorem digitVal_digitChar {n : ℕ} (h : n < 10) : digitVal (digitChar n) = n := by
  simp [digitVal, digitChar_toNat h]

theorem digitChar_inj {a b : ℕ} (ha : a < 10) (hb : b < 10) (h : digitChar a = digitChar b) :
    a = b := by
  have := congrArg Char.toNat h
  rw [digitChar_toNat ha, digitChar_toNat hb] at this
  omega

theorem isDig_bounds {c : Char} (h : isDig c = true) : 48 ≤ c.toNat ∧ c.toNat ≤ 57 := by
  simpa [isDig] using h

theorem digitVal_lt {c : Char} (h : isDig c = true) : digitVal c < 10 := by
  have := isDig_bounds h
  simp only [digitVal]
  omega

theorem digitChar_digitVal {c : Char} (h : isDig c = true) : digitChar (digitVal c) = c := by
  have hb := isDig_bounds h
  apply char_toNat_inj
  rw [digitChar_toNat (digitVal_lt h)]
  simp only [digitVal]
  omega

theorem isDig_digitChar {n : ℕ} (h : n < 10) : isDig (digitChar n) = true := by
  interval_cases n <;> decide

end CharLemmas

section CalendarLemmas

theorem daysInMonth_bounds {y m : ℕ} (h1 : 1 ≤ m) (h2 : m ≤ 12) :
    28 ≤ daysInMonth y m ∧ daysInMonth y m ≤ 31 := by
  interval_cases m <;> (simp only [daysInMonth]; try split) <;> omega

theorem isLeap_prop {y : ℕ} :
    isLeap y = true ↔ ((y % 4 = 0 ∧ y % 100 ≠ 0) ∨ y % 400 = 0) := by
  simp [isLeap]

theorem days0_mk (y m d : ℕ) :
    days0 ⟨y, m, d⟩ = 365 * (if m ≤ 2 then y - 1 else y) + (if m ≤ 2 then y - 1 else y) / 4
      - (if m ≤ 2 then y - 1 else y) / 100 + (if m ≤ 2 then y - 1 else y) / 400
      + monthOffset m + (d - 1) := rfl

theorem days0_mk_le2 (y m d : ℕ) (h : m ≤ 2) :
    days0 ⟨y, m, d⟩ = 365 * (y - 1) + (y - 1) / 4 - (y - 1) / 100 + (y - 1) / 400
      + monthOffset m + (d - 1) := by
  rw [days0_mk, if_pos h]

theorem days0_mk_gt2 (y m d : ℕ) (h : ¬ m ≤ 2) :
    days0 ⟨y, m, d⟩ = 365 * y + y / 4 - y / 100 + y / 400 + monthOffset m + (d - 1) := by
  rw [days0_mk, if_neg h]

theorem validCivil_mk {y m d : ℕ} :
    ValidCivil ⟨y, m, d⟩ ↔ 1 ≤ y ∧ 1 ≤ m ∧ m ≤ 12 ∧ 1 ≤ d ∧ d ≤ daysInMonth y m :=
  Iff.rfl

set_option maxHeartbeats 1600000 in
theorem days0_nextDay {t : CivilDate} (h : ValidCivil t) :
    days0 (nextDay t) = days0 t + 1 := by
  rcases t with ⟨y, m, d⟩
  obtain ⟨hy, hm1, hm2, hd1, hd2⟩ := validCivil_mk.mp h
  show days0 (if d < daysInMonth y m then ⟨y, m, d + 1⟩
      else if m < 12 then ⟨y, m + 1, 1⟩ else ⟨y + 1, 1, 1⟩) = days0 ⟨y, m, d⟩ + 1
  by_cases hlt : d < daysInMonth y m
  · rw [if_pos hlt]
    by_cases hm2' : m ≤ 2
    · rw [days0_mk_le2 _ _ _ hm2', days0_mk_le2 _ _ _ hm2']
      omega
    · rw [days0_mk_gt2 _ _ _ hm2', days0_mk_gt2 _ _ _ hm2']
      omega
  · rw [if_neg hlt]
    have hd : d = daysInMonth y m := by omega
    by_cases hm : m < 12
    · rw [if_pos hm]
      by_cases hm2' : m = 2
      · subst hm2'
        rw [days0_mk_gt2 y 3 1 (by norm_num), days0_mk_le2 y 2 d (by norm_num)]
        simp only [monthOffset]
        rcases hL : isLeap y with _ | _
        · have hL' : ¬ ((y % 4 = 0 ∧ y % 100 ≠ 0) ∨ y % 400 = 0) := by
            rw [← isLeap_prop, hL]; simp
          have hd' : d = 28 := by rw [hd]; simp [daysInMonth, hL]
          omega
        · have hL' : (y % 4 = 0 ∧ y % 100 ≠ 0) ∨ y % 400 = 0 := isLeap_prop.mp hL
          have hd' : d = 29 := by rw [hd]; simp [daysInMonth, hL]
          omega
      · interval_cases m
        · rw [days0_mk_le2 y 2 1 (by norm_num), days0_mk_le2 y 1 d (by norm_num)]
          simp only [daysInMonth] at hd
          simp only [monthOffset]
          omega
        · exact absurd rfl hm2'
        all_goals
          rw [days0_mk_gt2 _ _ _ (by norm_num), days0_mk_gt2 _ _ _ (by norm_num)]
          simp only [daysInMonth] at hd
          simp only [monthOffset]
          omega
    · rw [if_neg hm]
      have hm12 : m = 12 := by omega
      subst hm12
      simp only [daysInMonth] at hd
      rw [days0_mk_le2 (y + 1) 1 1 (by norm_num), days0_mk_gt2 y 12 d (by norm_num)]
      simp only [monthOffset]
      omega

theorem valid_nextDay {t : CivilDate} (h : ValidCivil t) : ValidCivil (nextDay t) := by
  rcases t with ⟨y, m, d⟩
  obtain ⟨hy, hm1, hm2, hd1, hd2⟩ := validCivil_mk.mp h
  show ValidCivil (if d < daysInMonth y m then ⟨y, m, d + 1⟩
      else if m < 12 then ⟨y, m + 1, 1⟩ else ⟨y + 1, 1, 1⟩)
  by_cases hlt : d < daysInMonth y m
  · rw [if_pos hlt, validCivil_mk]
    omega
  · rw [if_neg hlt]
    by_cases hm : m < 12
    · rw [if_pos hm, validCivil_mk]
      have hb := daysInMonth_bounds (y := y) (m := m + 1) (by omega) (by omega)
      omega
    · rw [if_neg hm, validCivil_mk]
      have : daysInMonth (y + 1) 1 = 31 := rfl
      omega

theorem prevDay_mk (y m d : ℕ) :
    prevDay ⟨y, m, d⟩ = if 1 < d then ⟨y, m, d - 1⟩
      else if 1 < m then ⟨y, m - 1, daysInMonth y (m - 1)⟩ else ⟨y - 1, 12, 31⟩ := rfl

theorem nextDay_mk (y m d : ℕ) :
    nextDay ⟨y, m, d⟩ = if d < daysInMonth y m then ⟨y, m, d + 1⟩
      else if m < 12 then ⟨y, m + 1, 1⟩ else ⟨y + 1, 1, 1⟩ := rfl

theorem valid_prevDay {t : CivilDate} (h : ValidCivil t) (hne : t ≠ ⟨1, 1, 1⟩) :
    ValidCivil (prevDay t) ∧ nextDay (prevDay t) = t := by
  rcases t with ⟨y, m, d⟩
  obtain ⟨hy, hm1, hm2, hd1, hd2⟩ := validCivil_mk.mp h
  rw [prevDay_mk]
  by_cases hd : 1 < d
  · rw [if_pos hd]
    have hc : d - 1 < daysInMonth y m := by omega
    have he : d - 1 + 1 = d := by omega
    refine ⟨validCivil_mk.mpr ⟨hy, hm1, hm2, by omega, by omega⟩, ?_⟩
    rw [nextDay_mk, if_pos hc, he]
  · rw [if_neg hd]
    have hd1' : d = 1 := by omega
    by_cases hm : 1 < m
    · rw [if_pos hm]
      have hb := daysInMonth_bounds (y := y) (m := m - 1) (by omega) (by omega)
      have hc1 : ¬ daysInMonth y (m - 1) < daysInMonth y (m - 1) := by omega
      have hc2 : m - 1 < 12 := by omega
      have he : m - 1 + 1 = m := by omega
      refine ⟨validCivil_mk.mpr ⟨hy, by omega, by omega, by omega, le_refl _⟩, ?_⟩
      rw [nextDay_mk, if_neg hc1, if_pos hc2, he, hd1']
    · rw [if_neg hm]
      have hm1' : m = 1 := by omega
      have hy2 : 2 ≤ y := by
        rcases Nat.lt_or_ge y 2 with hlt | hge
        · exact absurd (by simp only [CivilDate.mk.injEq]; omega) hne
        · exact hge
      have h31 : daysInMonth (y - 1) 12 = 31 := rfl
      have hc1 : ¬ (31 : ℕ) < daysInMonth (y - 1) 12 := by omega
      have hc2 : ¬ (12 : ℕ) < 12 := by omega
      have he : y - 1 + 1 = y := by omega
      refine ⟨validCivil_mk.mpr ⟨by omega, by omega, by omega, by omega, by omega⟩, ?_⟩
      rw [nextDay_mk, if_neg hc1, if_neg hc2, he, hm1', hd1']

theorem days0_lower {t : CivilDate} (h : ValidCivil t) (hy : 2 ≤ t.y) : 671 ≤ days0 t := by
  rcases t with ⟨y, m, d⟩
  obtain ⟨hy1, hm1, hm2, hd1, hd2⟩ := validCivil_mk.mp h
  simp only at hy
  have hdiv : (y - 1) / 100 ≤ (y - 1) / 4 := Nat.div_le_div_left (by norm_num) (by norm_num)
  have hdiv2 : y / 100 ≤ y / 4 := Nat.div_le_div_left (by norm_num) (by norm_num)
  have h365 : 365 ≤ 365 * (y - 1) := by omega
  have h730 : 730 ≤ 365 * y := by omega
  by_cases hm : m ≤ 2
  · interval_cases m
    · rw [days0_mk_le2 _ _ _ (by norm_num)]
      simp only [monthOffset]
      omega
    · rw [days0_mk_le2 _ _ _ (by norm_num)]
      simp only [monthOffset]
      omega
  · rw [days0_mk_gt2 _ _ _ hm]
    omega

theorem days0_one_one_one : days0 ⟨1, 1, 1⟩ = 306 := rfl

theorem addDays_facts (k : ℕ) {t : CivilDate} (h : ValidCivil t) :
    ValidCivil (addDays k t) ∧ days0 (addDays k t) = days0 t + k := by
  induction k with
  | zero => exact ⟨h, rfl⟩
  | succ n ih =>
    obtain ⟨hv, hd⟩ := ih
    refine ⟨valid_nextDay hv, ?_⟩
    show days0 (nextDay (addDays n t)) = days0 t + (n + 1)
    rw [days0_nextDay hv, hd]
    omega

theorem subDays_facts {t : CivilDate} (h : ValidCivil t) (hy : 2 ≤ t.y) {k : ℕ} (hk : k ≤ 6) :
    ValidCivil (subDays k t) ∧ days0 (subDays k t) + k = days0 t := by
  induction k with
  | zero => exact ⟨h, rfl⟩
  | succ n ih =>
    obtain ⟨hv, hd⟩ := ih (by omega)
    have hlow : 671 ≤ days0 t := days0_lower h hy
    have hne : subDays n t ≠ ⟨1, 1, 1⟩ := by
      intro he
      rw [he, days0_one_one_one] at hd
      omega
    obtain ⟨hv2, hstep⟩ := valid_prevDay hv hne
    refine ⟨hv2, ?_⟩
    show days0 (prevDay (subDays n t)) + (n + 1) = days0 t
    have hup := days0_nextDay hv2
    rw [hstep] at hup
    omega

theorem startOfWeekMon_facts {t : CivilDate} (h : ValidCivil t) (hy : 2 ≤ t.y) :
    ValidCivil (startOfWeekMon t) ∧ dayOfWeek (startOfWeekMon t) = 1 := by
  have hk : (dayOfWeek t + 6) % 7 ≤ 6 := by omega
  obtain ⟨hv, hd⟩ := subDays_facts h hy hk
  refine ⟨hv, ?_⟩
  simp only [dayOfWeek, startOfWeekMon] at hd ⊢
  omega

theorem dayOfWeek_week_day {t : CivilDate} (h : ValidCivil t) (hy : 2 ≤ t.y) (i : ℕ) :
    dayOfWeek (addDays i (startOfWeekMon t)) = (1 + i) % 7 := by
  obtain ⟨hv, hone⟩ := startOfWeekMon_facts h hy
  obtain ⟨hvi, hdi⟩ := addDays_facts i hv
  simp only [dayOfWeek] at hone hdi ⊢
  omega

theorem valid_week_day {t : CivilDate} (h : ValidCivil t) (hy : 2 ≤ t.y) (i : ℕ) :
    ValidCivil (addDays i (startOfWeekMon t)) :=
  (addDays_facts i (startOfWeekMon_facts h hy).1).1

theorem isWeekend_iff {t : CivilDate} :
    isWeekend t = true ↔ dayOfWeek t = 0 ∨ dayOfWeek t = 6 := by
  simp [isWeekend]

end CalendarLemmas

section AggregatorLemmas

theorem foldl_add_map {α : Type} (g : α → ℚ) :
    ∀ (l : List α) (init : ℚ), l.foldl (fun acc x => acc + g x) init = init + (l.map g).sum
  | [], init => by simp
  | x :: xs, init => by
    simp only [List.foldl_cons, List.map_cons, List.sum_cons, foldl_add_map g xs]
    ring

theorem aggBody_eq (logs : List LogEntry) (acc : ℚ) (day : CivilDate) :
    (if isWeekend day then acc
     else
       match findLogFor logs (formatDate day) with
       | some l => acc + calculateHoursForLog l
       | none => acc)
    = acc + (if isWeekend day then 0 else dayHours logs day) := by
  by_cases hw : isWeekend day = true
  · simp [hw]
  · simp only [hw, if_neg, Bool.false_eq_true, not_false_eq_true, dayHours]
    cases findLogFor logs (formatDate day) <;> simp

theorem aggregate_none_weekly (logs : List LogEntry) (today : CivilDate) (carry : ℚ)
    (hne : logs ≠ []) :
    (aggregate logs today none carry).weeklyHours
      = round2 (((weekInterval today).map
          (fun day => if isWeekend day then 0 else dayHours logs day)).sum + carry) := by
  have hlen : 0 < logs.length := List.length_pos.mpr hne
  simp only [aggregate, hlen, if_pos]
  have hbody :
      (weekInterval today).foldl
        (fun acc day =>
          if isWeekend day then acc
          else
            match findLogFor logs (formatDate day) with
            | some l => acc + calculateHoursForLog l
            | none => acc) 0
      = ((weekInterval today).map
          (fun day => if isWeekend day then 0 else dayHours logs day)).sum := by
    have hfun :
        (fun (acc : ℚ) (day : CivilDate) =>
          if isWeekend day then acc
          else
            match findLogFor logs (formatDate day) with
            | some l => acc + calculateHoursForLog l
            | none => acc)
        = fun acc day => acc + (if isWeekend day then 0 else dayHours logs day) := by
      funext acc day
      exact aggBody_eq logs acc day
    rw [hfun, foldl_add_map, zero_add]
  rw [hbody]

theorem weekInterval_sum_eq_weekday_sum (logs : List LogEntry) {today : CivilDate}
    (hv : ValidCivil today) (hy : 2 ≤ today.y) :
    ((weekInterval today).map
      (fun day => if isWeekend day then 0 else dayHours logs day)).sum
    = ((weekdayDates today).map (dayHours logs)).sum := by
  have hwk : ∀ i, i < 5 → isWeekend (addDays i (startOfWeekMon today)) = false := by
    intro i hi
    rw [← Bool.not_eq_true, isWeekend_iff, dayOfWeek_week_day hv hy i]
    omega
  have hsat : isWeekend (addDays 5 (startOfWeekMon today)) = true := by
    rw [isWeekend_iff, dayOfWeek_week_day hv hy 5]
    omega
  have hsun : isWeekend (addDays 6 (startOfWeekMon today)) = true := by
    rw [isWeekend_iff, dayOfWeek_week_day hv hy 6]
    omega
  have h7 : List.range 7 = [0, 1, 2, 3, 4, 5, 6] := rfl
  have h5 : List.range 5 = [0, 1, 2, 3, 4] := rfl
  rw [weekInterval, weekdayDates, h7, h5]
  simp only [List.map_cons, List.map_nil, List.sum_cons, List.sum_nil]
  rw [hwk 0 (by norm_num), hwk 1 (by norm_num), hwk 2 (by norm_num), hwk 3 (by norm_num),
    hwk 4 (by norm_num), hsat, hsun]
  norm_num

end AggregatorLemmas

section DateStringLemmas

theorem parseDateFields_data {c1 c2 c3 c4 d1 c5 c6 d2 c7 c8 : Char} {s : String}
    (hs : s.data = [c1, c2, c3, c4, d1, c5, c6, d2, c7, c8]) :
    parseDateFields s =
      ⟨digitVal c1 * 1000 + digitVal c2 * 100 + digitVal c3 * 10 + digitVal c4,
       digitVal c5 * 10 + digitVal c6, digitVal c7 * 10 + digitVal c8⟩ := by
  unfold parseDateFields
  rw [hs]

theorem validDateStr_shape {s : String} (h : validDateStr s = true) :
    ∃ c1 c2 c3 c4 c5 c6 c7 c8,
      s.data = [c1, c2, c3, c4, '-', c5, c6, '-', c7, c8] ∧
      isDig c1 = true ∧ isDig c2 = true ∧ isDig c3 = true ∧ isDig c4 = true ∧
      isDig c5 = true ∧ isDig c6 = true ∧ isDig c7 = true ∧ isDig c8 = true ∧
      ValidCivil (parseDateFields s) := by
  unfold validDateStr at h
  split at h
  case _ c1 c2 c3 c4 d1 c5 c6 d2 c7 c8 heq =>
    simp only [Bool.and_eq_true, beq_iff_eq, decide_eq_true_eq] at h
    obtain ⟨⟨⟨⟨⟨⟨⟨⟨⟨⟨h1, h2⟩, h3⟩, h4⟩, hd1⟩, h5⟩, h6⟩, hd2⟩, h7⟩, h8⟩, hv⟩ := h
    subst hd1
    subst hd2
    exact ⟨c1, c2, c3, c4, c5, c6, c7, c8, heq, h1, h2, h3, h4, h5, h6, h7, h8,
      ⟨hv.1.1.1.1, hv.1.1.1.2, hv.1.1.2, hv.1.2, hv.2⟩⟩
  case _ =>
    exact absurd h (by simp)

theorem mk_data (l : List Char) : (String.mk l).data = l := rfl

theorem formatDate_data (t : CivilDate) :
    (formatDate t).data =
      [digitChar (t.y / 1000), digitChar (t.y / 100 % 10), digitChar (t.y / 10 % 10),
       digitChar (t.y % 10), '-', digitChar (t.m / 10), digitChar (t.m % 10), '-',
       digitChar (t.d / 10), digitChar (t.d % 10)] := by
  simp [formatDate, String.data_append, pad4, pad2]

theorem formatDate_parseDateFields {s : String} (h : validDateStr s = true) :
    formatDate (parseDateFields s) = s := by
  obtain ⟨c1, c2, c3, c4, c5, c6, c7, c8, hs, h1, h2, h3, h4, h5, h6, h7, h8, _⟩ :=
    validDateStr_shape h
  rw [parseDateFields_data hs]
  apply String.ext
  rw [formatDate_data, hs]
  have v1 := digitVal_lt h1
  have v2 := digitVal_lt h2
  have v3 := digitVal_lt h3
  have v4 := digitVal_lt h4
  have v5 := digitVal_lt h5
  have v6 := digitVal_lt h6
  have v7 := digitVal_lt h7
  have v8 := digitVal_lt h8
  have e1 : (digitVal c1 * 1000 + digitVal c2 * 100 + digitVal c3 * 10 + digitVal c4) / 1000
      = digitVal c1 := by omega
  have e2 : (digitVal c1 * 1000 + digitVal c2 * 100 + digitVal c3 * 10 + digitVal c4) / 100 % 10
      = digitVal c2 := by omega
  have e3 : (digitVal c1 * 1000 + digitVal c2 * 100 + digitVal c3 * 10 + digitVal c4) / 10 % 10
      = digitVal c3 := by omega
  have e4 : (digitVal c1 * 1000 + digitVal c2 * 100 + digitVal c3 * 10 + digitVal c4) % 10
      = digitVal c4 := by omega
  have e5 : (digitVal c5 * 10 + digitVal c6) / 10 = digitVal c5 := by omega
  have e6 : (digitVal c5 * 10 + digitVal c6) % 10 = digitVal c6 := by omega
  have e7 : (digitVal c7 * 10 + digitVal c8) / 10 = digitVal c7 := by omega
  have e8 : (digitVal c7 * 10 + digitVal c8) % 10 = digitVal c8 := by omega
  simp only [e1, e2, e3, e4, e5, e6, e7, e8, digitChar_digitVal h1, digitChar_digitVal h2,
    digitChar_digitVal h3, digitChar_digitVal h4, digitChar_digitVal h5, digitChar_digitVal h6,
    digitChar_digitVal h7, digitChar_digitVal h8]

theorem pad4_inj {a b : ℕ} (ha : a < 10000) (hb : b < 10000) (h : pad4 a = pad4 b) : a = b := by
  have hd := congrArg String.data h
  simp only [pad4, mk_data, List.cons.injEq, and_true] at hd
  obtain ⟨q1, q2, q3, q4⟩ := hd
  have g1 := digitChar_inj (by omega) (by omega) q1
  have g2 := digitChar_inj (by omega) (by omega) q2
  have g3 := digitChar_inj (by omega) (by omega) q3
  have g4 := digitChar_inj (by omega) (by omega) q4
  omega

theorem pad2_inj {a b : ℕ} (ha : a < 100) (hb : b < 100) (h : pad2 a = pad2 b) : a = b := by
  have hd := congrArg String.data h
  simp only [pad2, mk_data, List.cons.injEq, and_true] at hd
  obtain ⟨q1, q2⟩ := hd
  have g1 := digitChar_inj (by omega) (by omega) q1
  have g2 := digitChar_inj (by omega) (by omega) q2
  omega

end DateStringLemmas

section OrderLemmas

theorem char_lt_asymm {a b : Char} (h : a < b) : ¬ b < a := by
  rw [char_lt_iff_toNat] at h ⊢
  omega

theorem char_lt_irrefl (a : Char) : ¬ a < a := by
  rw [char_lt_iff_toNat]
  omega

theorem char_eq_of_not_lt {a b : Char} (h1 : ¬ a < b) (h2 : ¬ b < a) : a = b := by
  rw [char_lt_iff_toNat] at h1 h2
  exact char_toNat_inj (by omega)

theorem char_lt_of_lt_of_lt {a b c : Char} (h1 : a < b) (h2 : b < c) : a < c := by
  rw [char_lt_iff_toNat] at h1 h2 ⊢
  omega

theorem lexLt_asymm : ∀ {l1 l2 : List Char}, lexLt l1 l2 = true → lexLt l2 l1 = false
  | [], [], h => by simp [lexLt] at h
  | [], _ :: _, _ => by simp [lexLt]
  | _ :: _, [], h => by simp [lexLt] at h
  | a :: as, b :: bs, h => by
    simp only [lexLt] at h ⊢
    by_cases hab : a < b
    · rw [if_neg (char_lt_asymm hab), if_pos hab]
    · rw [if_neg hab] at h
      by_cases hba : b < a
      · rw [if_pos hba] at h
        exact absurd h (by simp)
      · rw [if_neg hba] at h
        rw [if_neg hba, if_neg hab]
        exact lexLt_asymm h

theorem lexLt_trans :
    ∀ {l1 l2 l3 : List Char}, lexLt l1 l2 = true → lexLt l2 l3 = true → lexLt l1 l3 = true
  | [], [], _, h1, _ => by simp [lexLt] at h1
  | [], _ :: _, [], _, h2 => by simp [lexLt] at h2
  | [], _ :: _, _ :: _, _, _ => by simp [lexLt]
  | _ :: _, [], _, h1, _ => by simp [lexLt] at h1
  | _ :: _, _ :: _, [], _, h2 => by simp [lexLt] at h2
  | a :: as, b :: bs, c :: cs, h1, h2 => by
    simp only [lexLt] at h1 h2 ⊢
    by_cases hab : a < b
    · by_cases hbc : b < c
      · rw [if_pos (char_lt_of_lt_of_lt hab hbc)]
      · rw [if_neg hbc] at h2
        by_cases hcb : c < b
        · rw [if_pos hcb] at h2
          exact absurd h2 (by simp)
        · have hbceq : b = c := char_eq_of_not_lt hbc hcb
          subst hbceq
          rw [if_pos hab]
    · rw [if_neg hab] at h1
      by_cases hba : b < a
      · rw [if_pos hba] at h1
        exact absurd h1 (by simp)
      · rw [if_neg hba] at h1
        have habeq : a = b := char_eq_of_not_lt hab hba
        subst habeq
        by_cases hac : a < c
        · rw [if_pos hac]
        · rw [if_neg hac] at h2 ⊢
          by_cases hca : c < a
          · rw [if_pos hca] at h2
            exact absurd h2 (by simp)
          · rw [if_neg hca] at h2 ⊢
            exact lexLt_trans h1 h2

theorem lexLt_eq_of_not :
    ∀ {l1 l2 : List Char}, lexLt l1 l2 = false → lexLt l2 l1 = false → l1 = l2
  | [], [], _, _ => rfl
  | [], _ :: _, h1, _ => by simp [lexLt] at h1
  | _ :: _, [], _, h2 => by simp [lexLt] at h2
  | a :: as, b :: bs, h1, h2 => by
    simp only [lexLt] at h1 h2
    by_cases hab : a < b
    · rw [if_pos hab] at h1
      exact absurd h1 (by simp)
    · by_cases hba : b < a
      · rw [if_pos hba] at h2
        exact absurd h2 (by simp)
      · have habeq : a = b := char_eq_of_not_lt hab hba
        subst habeq
        rw [if_neg hab, if_neg hab] at h1 h2
        rw [lexLt_eq_of_not h1 h2]

theorem strLt_asymm {a b : String} (h : strLt a b = true) : strLt b a = false :=
  lexLt_asymm h

theorem strLt_transitive {a b c : String} (h1 : strLt a b = true) (h2 : strLt b c = true) :
    strLt a c = true :=
  lexLt_trans h1 h2

theorem strLt_eq_of_not {a b : String} (h1 : strLt a b = false) (h2 : strLt b a = false) :
    a = b :=
  String.ext (lexLt_eq_of_not h1 h2)

theorem strGe_total (a b : String) : strGe a b ∨ strGe b a := by
  unfold strGe
  rcases h : strLt a b with _ | _
  · exact Or.inl rfl
  · exact Or.inr (strLt_asymm h)

theorem strGe_transitive {a b c : String} (h1 : strGe a b) (h2 : strGe b c) : strGe a c := by
  unfold strGe at h1 h2 ⊢
  rcases h3 : strLt a c with _ | _
  · rfl
  · rcases h4 : strLt b a with _ | _
    · have heq : a = b := strLt_eq_of_not h1 h4
      subst heq
      rw [h3] at h2
      exact h2
    · have hbc : strLt b c = true := strLt_transitive h4 h3
      rw [hbc] at h2
      exact h2

theorem strLe_total (a b : String) : strLe a b ∨ strLe b a :=
  (strGe_total b a).imp (fun h => h) (fun h => h)

theorem strLe_transitive {a b c : String} (h1 : strLe a b) (h2 : strLe b c) : strLe a c :=
  strGe_transitive (show strGe c b from h2) (show strGe b a from h1)

theorem sortRel_total (o : SortOrder) (a b : LogEntry) : sortRel o a b ∨ sortRel o b a := by
  cases o
  · exact Nat.le_total _ _
  · exact strGe_total a.date b.date

theorem sortRel_transitive (o : SortOrder) {a b c : LogEntry}
    (h1 : sortRel o a b) (h2 : sortRel o b c) : sortRel o a c := by
  cases o
  · exact Nat.le_trans h1 h2
  · exact strGe_transitive h1 h2

theorem dig_lt_iff {a b : Char} (ha : isDig a = true) (hb : isDig b = true) :
    a < b ↔ digitVal a < digitVal b := by
  have h1 := isDig_bounds ha
  have h2 := isDig_bounds hb
  rw [char_lt_iff_toNat]
  unfold digitVal
  omega

theorem dig_eq_iff {a b : Char} (ha : isDig a = true) (hb : isDig b = true) :
    a = b ↔ digitVal a = digitVal b := by
  constructor
  · exact fun h => congrArg digitVal h
  · intro h
    have h1 := isDig_bounds ha
    have h2 := isDig_bounds hb
    unfold digitVal at h
    exact char_toNat_inj (by omega)

theorem lexLt_cons_same (c : Char) (r r' : List Char) :
    lexLt (c :: r) (c :: r') = lexLt r r' := by
  simp only [lexLt]
  rw [if_neg (char_lt_irrefl c), if_neg (char_lt_irrefl c)]

theorem lexLt_cons_digit {a b : Char} (ha : isDig a = true) (hb : isDig b = true)
    (as bs : List Char) :
    lexLt (a :: as) (b :: bs)
      = (decide (digitVal a < digitVal b)
          || (decide (digitVal a = digitVal b) && lexLt as bs)) := by
  simp only [lexLt]
  by_cases h1 : a < b
  · rw [if_pos h1]
    have : digitVal a < digitVal b := (dig_lt_iff ha hb).mp h1
    simp [this]
  · rw [if_neg h1]
    by_cases h2 : b < a
    · rw [if_pos h2]
      have hlt : digitVal b < digitVal a := (dig_lt_iff hb ha).mp h2
      have : ¬ digitVal a < digitVal b := by omega
      have hne : ¬ digitVal a = digitVal b := by omega
      simp [this, hne]
    · rw [if_neg h2]
      have heq : a = b := char_eq_of_not_lt h1 h2
      have : digitVal a = digitVal b := congrArg digitVal heq
      have hnlt : ¬ digitVal a < digitVal b := by omega
      simp [this, hnlt]

end OrderLemmas

section MonotonicityLemmas

theorem days0_le_same_month {y m d1 d2 : ℕ} (h : d1 ≤ d2) :
    days0 ⟨y, m, d1⟩ ≤ days0 ⟨y, m, d2⟩ := by
  by_cases hm2 : m ≤ 2
  · rw [days0_mk_le2 _ _ _ hm2, days0_mk_le2 _ _ _ hm2]
    omega
  · rw [days0_mk_gt2 _ _ _ hm2, days0_mk_gt2 _ _ _ hm2]
    omega

theorem days0_lt_same_month {y m d1 d2 : ℕ} (h1 : 1 ≤ d1) (h : d1 < d2) :
    days0 ⟨y, m, d1⟩ < days0 ⟨y, m, d2⟩ := by
  by_cases hm2 : m ≤ 2
  · rw [days0_mk_le2 _ _ _ hm2, days0_mk_le2 _ _ _ hm2]
    omega
  · rw [days0_mk_gt2 _ _ _ hm2, days0_mk_gt2 _ _ _ hm2]
    omega

theorem days0_month_step {y m d : ℕ} (hv : ValidCivil ⟨y, m, d⟩) (hm : m < 12) :
    days0 ⟨y, m, d⟩ < days0 ⟨y, m + 1, 1⟩ := by
  obtain ⟨hy, hm1, hm2, hd1, hd2⟩ := validCivil_mk.mp hv
  have hb := daysInMonth_bounds (y := y) (m := m) hm1 hm2
  have hvdim : ValidCivil ⟨y, m, daysInMonth y m⟩ :=
    validCivil_mk.mpr ⟨hy, hm1, hm2, by omega, le_refl _⟩
  have hstep := days0_nextDay hvdim
  rw [nextDay_mk, if_neg (Nat.lt_irrefl _), if_pos hm] at hstep
  have hle : days0 ⟨y, m, d⟩ ≤ days0 ⟨y, m, daysInMonth y m⟩ := days0_le_same_month hd2
  omega

theorem days0_month_start_mono {y : ℕ} (hy : 1 ≤ y) :
    ∀ m' m, 1 ≤ m → m < m' → m' ≤ 12 → days0 ⟨y, m, 1⟩ < days0 ⟨y, m', 1⟩ := by
  intro m'
  induction m' with
  | zero => omega
  | succ n ih =>
    intro m hm1 hlt hle
    have hb := daysInMonth_bounds (y := y) (m := m) hm1 (by omega)
    have hvm : ValidCivil ⟨y, m, 1⟩ := validCivil_mk.mpr ⟨hy, hm1, by omega, le_refl _, by omega⟩
    by_cases heq : m = n
    · subst heq
      exact days0_month_step hvm (by omega)
    · have h1 := ih m hm1 (by omega) (by omega)
      have hbn := daysInMonth_bounds (y := y) (m := n) (by omega) (by omega)
      have hvn : ValidCivil ⟨y, n, 1⟩ :=
        validCivil_mk.mpr ⟨hy, by omega, by omega, le_refl _, by omega⟩
      have h2 : days0 ⟨y, n, 1⟩ < days0 ⟨y, n + 1, 1⟩ := days0_month_step hvn (by omega)
      omega

theorem days0_within_year {y m d m' d' : ℕ} (hv : ValidCivil ⟨y, m, d⟩)
    (hv' : ValidCivil ⟨y, m', d'⟩) (h : m < m') : days0 ⟨y, m, d⟩ < days0 ⟨y, m', d'⟩ := by
  obtain ⟨hy, hm1, hm2, hd1, hd2⟩ := validCivil_mk.mp hv
  obtain ⟨_, hm1', hm2', hd1', hd2'⟩ := validCivil_mk.mp hv'
  have hstep : days0 ⟨y, m, d⟩ < days0 ⟨y, m + 1, 1⟩ := days0_month_step hv (by omega)
  have hstart : days0 ⟨y, m', 1⟩ ≤ days0 ⟨y, m', d'⟩ := days0_le_same_month hd1'
  by_cases hsucc : m + 1 = m'
  · rw [hsucc] at hstep
    omega
  · have hmono := days0_month_start_mono hy m' (m + 1) (by omega) (by omega) hm2'
    omega

theorem days0_year_start_le {y y' : ℕ} (h1 : 1 ≤ y) (h : y ≤ y') :
    days0 ⟨y, 1, 1⟩ ≤ days0 ⟨y', 1, 1⟩ := by
  rw [days0_mk_le2 _ _ _ (by norm_num), days0_mk_le2 _ _ _ (by norm_num)]
  have d4 : (y - 1) / 4 ≤ (y' - 1) / 4 := Nat.div_le_div_right (by omega)
  have d100 : (y - 1) / 100 ≤ (y' - 1) / 100 := Nat.div_le_div_right (by omega)
  have d400 : (y - 1) / 400 ≤ (y' - 1) / 400 := Nat.div_le_div_right (by omega)
  have e1 : (y - 1) / 100 ≤ (y - 1) / 4 := Nat.div_le_div_left (by norm_num) (by norm_num)
  have e2 : (y' - 1) / 100 ≤ (y' - 1) / 4 := Nat.div_le_div_left (by norm_num) (by norm_num)
  omega

theorem days0_year_end {y : ℕ} (hy : 1 ≤ y) : days0 ⟨y, 12, 31⟩ < days0 ⟨y + 1, 1, 1⟩ := by
  have h31 : daysInMonth y 12 = 31 := rfl
  have hv : ValidCivil ⟨y, 12, 31⟩ := validCivil_mk.mpr ⟨hy, by omega, by omega, by omega, by omega⟩
  have hstep := days0_nextDay hv
  have hc1 : ¬ (31 : ℕ) < daysInMonth y 12 := by omega
  have hc2 : ¬ (12 : ℕ) < 12 := by omega
  rw [nextDay_mk, if_neg hc1, if_neg hc2] at hstep
  omega

theorem days0_lt_of_tripleLt {t u : CivilDate} (ht : ValidCivil t) (hu : ValidCivil u)
    (h : tripleLt t u) : days0 t < days0 u := by
  rcases t with ⟨y, m, d⟩
  rcases u with ⟨y', m', d'⟩
  obtain ⟨hy, hm1, hm2, hd1, hd2⟩ := validCivil_mk.mp ht
  obtain ⟨hy', hm1', hm2', hd1', hd2'⟩ := validCivil_mk.mp hu
  simp only [tripleLt] at h
  rcases h with hyy | ⟨hyy, hmm⟩
  · have h31 : daysInMonth y 12 = 31 := rfl
    have hv12 : ValidCivil ⟨y, 12, 31⟩ :=
      validCivil_mk.mpr ⟨hy, by omega, by omega, by omega, by omega⟩
    have e1 : days0 ⟨y, m, d⟩ ≤ days0 ⟨y, 12, 31⟩ := by
      by_cases hm12 : m = 12
      · subst hm12
        exact days0_le_same_month (by omega)
      · exact le_of_lt (days0_within_year ht hv12 (by omega))
    have e2 : days0 ⟨y, 12, 31⟩ < days0 ⟨y + 1, 1, 1⟩ := days0_year_end hy
    have e3 : days0 ⟨y + 1, 1, 1⟩ ≤ days0 ⟨y', 1, 1⟩ := days0_year_start_le (by omega) (by omega)
    have h31' : daysInMonth y' 1 = 31 := rfl
    have hv1' : ValidCivil ⟨y', 1, 1⟩ :=
      validCivil_mk.mpr ⟨hy', by omega, by omega, by omega, by omega⟩
    have e4 : days0 ⟨y', 1, 1⟩ ≤ days0 ⟨y', m', d'⟩ := by
      by_cases hm'1 : m' = 1
      · subst hm'1
        exact days0_le_same_month hd1'
      · exact le_of_lt (days0_within_year hv1' hu (by omega))
    omega
  · subst hyy
    rcases hmm with hmm | ⟨hmm, hdd⟩
    · exact days0_within_year ht hu hmm
    · subst hmm
      exact days0_lt_same_month hd1 hdd

theorem tripleLt_trichot (t u : CivilDate) : tripleLt t u ∨ t = u ∨ tripleLt u t := by
  rcases t with ⟨y, m, d⟩
  rcases u with ⟨y', m', d'⟩
  simp only [tripleLt, CivilDate.mk.injEq]
  omega

theorem days0_lt_iff_tripleLt {t u : CivilDate} (ht : ValidCivil t) (hu : ValidCivil u) :
    days0 t < days0 u ↔ tripleLt t u := by
  constructor
  · intro h
    rcases tripleLt_trichot t u with h' | h' | h'
    · exact h'
    · subst h'
      omega
    · have := days0_lt_of_tripleLt hu ht h'
      omega
  · exact days0_lt_of_tripleLt ht hu

theorem civil_eq_of_days0_eq {t u : CivilDate} (ht : ValidCivil t) (hu : ValidCivil u)
    (h : days0 t = days0 u) : t = u := by
  rcases tripleLt_trichot t u with h' | h' | h'
  · have := days0_lt_of_tripleLt ht hu h'
    omega
  · exact h'
  · have := days0_lt_of_tripleLt hu ht h'
    omega

theorem parseFields_valid {s : String} (h : validDateStr s = true) :
    ValidCivil (parseDateFields s) := by
  obtain ⟨_, _, _, _, _, _, _, _, _, _, _, _, _, _, _, _, _, hv⟩ := validDateStr_shape h
  exact hv

theorem strLt_iff_tripleLt {s s' : String} (h : validDateStr s = true)
    (h' : validDateStr s' = true) :
    strLt s s' = true ↔ tripleLt (parseDateFields s) (parseDateFields s') := by
  obtain ⟨c1, c2, c3, c4, c5, c6, c7, c8, hs, h1, h2, h3, h4, h5, h6, h7, h8, _⟩ :=
    validDateStr_shape h
  obtain ⟨e1, e2, e3, e4, e5, e6, e7, e8, hs', g1, g2, g3, g4, g5, g6, g7, g8, _⟩ :=
    validDateStr_shape h'
  have hv1 := digitVal_lt h1
  have hv2 := digitVal_lt h2
  have hv3 := digitVal_lt h3
  have hv4 := digitVal_lt h4
  have hv5 := digitVal_lt h5
  have hv6 := digitVal_lt h6
  have hv7 := digitVal_lt h7
  have hv8 := digitVal_lt h8
  have hw1 := digitVal_lt g1
  have hw2 := digitVal_lt g2
  have hw3 := digitVal_lt g3
  have hw4 := digitVal_lt g4
  have hw5 := digitVal_lt g5
  have hw6 := digitVal_lt g6
  have hw7 := digitVal_lt g7
  have hw8 := digitVal_lt g8
  rw [parseDateFields_data hs, parseDateFields_data hs', strLt, hs, hs']
  rw [lexLt_cons_digit h1 g1, lexLt_cons_digit h2 g2, lexLt_cons_digit h3 g3,
    lexLt_cons_digit h4 g4, lexLt_cons_same, lexLt_cons_digit h5 g5, lexLt_cons_digit h6 g6,
    lexLt_cons_same, lexLt_cons_digit h7 g7, lexLt_cons_digit h8 g8]
  have hnil : lexLt [] [] = false := rfl
  rw [hnil]
  simp only [tripleLt, Bool.or_eq_true, Bool.and_eq_true, decide_eq_true_eq, Bool.and_false,
    Bool.or_false]
  omega

theorem dateValue_lt_iff {s s' : String} (h : validDateStr s = true)
    (h' : validDateStr s' = true) :
    dateValue s < dateValue s' ↔ strLt s s' = true := by
  rw [dateValue, dateValue, days0_lt_iff_tripleLt (parseFields_valid h) (parseFields_valid h'),
    strLt_iff_tripleLt h h']

theorem date_str_eq_of_fields_eq {s s' : String} (h : validDateStr s = true)
    (h' : validDateStr s' = true) (hf : parseDateFields s = parseDateFields s') : s = s' := by
  have := congrArg formatDate hf
  rw [formatDate_parseDateFields h, formatDate_parseDateFields h'] at this
  exact this

end MonotonicityLemmas

section ListLemmas

theorem eq_of_perm_of_pairwise {α : Type} {R : α → α → Prop} :
    ∀ {l1 l2 : List α}, l1.Perm l2 → List.Pairwise R l1 → List.Pairwise R l2 →
      (∀ a ∈ l1, ∀ b ∈ l1, R a b → R b a → a = b) → l1 = l2 := by
  intro l1
  induction l1 with
  | nil =>
    intro l2 hp _ _ _
    exact (hp.symm.eq_nil).symm
  | cons a t1 ih =>
    intro l2 hp hp1 hp2 hanti
    cases l2 with
    | nil => exact absurd hp.eq_nil (by simp)
    | cons b t2 =>
      by_cases hab : a = b
      · subst hab
        have hpt := hp.cons_inv
        have htl := ih hpt (List.pairwise_cons.mp hp1).2 (List.pairwise_cons.mp hp2).2
          (fun x hx y hy => hanti x (List.mem_cons_of_mem a hx) y (List.mem_cons_of_mem a hy))
        rw [htl]
      · exfalso
        have ha2 : a ∈ b :: t2 := hp.subset (List.mem_cons_self a t1)
        have hb1 : b ∈ a :: t1 := hp.symm.subset (List.mem_cons_self b t2)
        have hat2 : a ∈ t2 := by
          rcases List.mem_cons.mp ha2 with h | h
          · exact absurd h hab
          · exact h
        have hbt1 : b ∈ t1 := by
          rcases List.mem_cons.mp hb1 with h | h
          · exact absurd h.symm hab
          · exact h
        have hRab : R a b := (List.pairwise_cons.mp hp1).1 b hbt1
        have hRba : R b a := (List.pairwise_cons.mp hp2).1 a hat2
        exact hab (hanti a (List.mem_cons_self a t1) b hb1 hRab hRba)

theorem distinctList_aux :
    ∀ (l : List String) (acc : List String), acc.Nodup →
      (List.foldl insertIfNew acc l).Nodup ∧
        ∀ x, x ∈ List.foldl insertIfNew acc l ↔ x ∈ acc ∨ x ∈ l := by
  intro l
  induction l with
  | nil =>
    intro acc hacc
    exact ⟨hacc, fun x => by simp⟩
  | cons s rest ih =>
    intro acc hacc
    rw [List.foldl_cons]
    by_cases hmem : s ∈ acc
    · have hins : insertIfNew acc s = acc := if_pos hmem
      rw [hins]
      obtain ⟨hn, hm⟩ := ih acc hacc
      refine ⟨hn, fun x => ?_⟩
      rw [hm x]
      constructor
      · rintro (h | h)
        · exact Or.inl h
        · exact Or.inr (List.mem_cons_of_mem s h)
      · rintro (h | h)
        · exact Or.inl h
        · rcases List.mem_cons.mp h with h' | h'
          · subst h'
            exact Or.inl hmem
          · exact Or.inr h'
    · have hins : insertIfNew acc s = acc ++ [s] := if_neg hmem
      rw [hins]
      have hacc2 : (acc ++ [s]).Nodup := by
        simp [List.nodup_append, hacc, hmem]
      obtain ⟨hn, hm⟩ := ih (acc ++ [s]) hacc2
      refine ⟨hn, fun x => ?_⟩
      rw [hm x]
      simp only [List.mem_append, List.mem_singleton, List.mem_cons]
      tauto

theorem distinctList_nodup (l : List String) : (distinctList l).Nodup :=
  (distinctList_aux l [] List.nodup_nil).1

theorem mem_distinctList (l : List String) (x : String) : x ∈ distinctList l ↔ x ∈ l := by
  rw [distinctList]
  rw [(distinctList_aux l [] List.nodup_nil).2 x]
  simp

theorem findLogFor_dedupFrom :
    ∀ (logs : List LogEntry) (seen : List String) (s : String), s ∉ seen →
      findLogFor (dedupByDateFrom seen logs) s = findLogFor logs s := by
  intro logs
  induction logs with
  | nil => intro seen s _; rfl
  | cons l rest ih =>
    intro seen s hs
    show findLogFor (if l.date ∈ seen then dedupByDateFrom seen rest
      else l :: dedupByDateFrom (l.date :: seen) rest) s = findLogFor (l :: rest) s
    by_cases hmem : l.date ∈ seen
    · rw [if_pos hmem]
      have hne : (l.date == s) = false := by
        rw [beq_eq_false_iff_ne]
        intro he
        exact hs (he ▸ hmem)
      show findLogFor (dedupByDateFrom seen rest) s = List.find? (fun log => log.date == s) (l :: rest)
      rw [List.find?_cons_of_neg _ (by simp [hne]), ih seen s hs]
      rfl
    · rw [if_neg hmem]
      rcases hls : (l.date == s) with _ | _
      · show List.find? (fun log => log.date == s) (l :: dedupByDateFrom (l.date :: seen) rest)
          = List.find? (fun log => log.date == s) (l :: rest)
        rw [List.find?_cons_of_neg _ (by simp [hls]), List.find?_cons_of_neg _ (by simp [hls])]
        have hs2 : s ∉ l.date :: seen := by
          intro hc
          rcases List.mem_cons.mp hc with h | h
          · rw [beq_eq_false_iff_ne] at hls
            exact hls h.symm
          · exact hs h
        exact ih (l.date :: seen) s hs2
      · show List.find? (fun log => log.date == s) (l :: dedupByDateFrom (l.date :: seen) rest)
          = List.find? (fun log => log.date == s) (l :: rest)
        rw [List.find?_cons_of_pos _ (by simp [hls]), List.find?_cons_of_pos _ (by simp [hls])]

theorem findLogFor_dedupByDate (logs : List LogEntry) (s : String) :
    findLogFor (dedupByDate logs) s = findLogFor logs s :=
  findLogFor_dedupFrom logs [] s (by simp)

theorem dedupByDate_nil_iff (logs : List LogEntry) : dedupByDate logs = [] ↔ logs = [] := by
  cases logs with
  | nil => simp [dedupByDate, dedupByDateFrom]
  | cons l rest =>
    simp only [dedupByDate, dedupByDateFrom]
    rw [if_neg (by simp)]
    simp

end ListLemmas

section ViewLemmas

theorem strEmpty_iff {s : String} : s.data.isEmpty = true ↔ s = "" := by
  rcases s with ⟨l⟩
  cases l with
  | nil => exact ⟨fun _ => rfl, fun _ => rfl⟩
  | cons c cs =>
    constructor
    · intro h
      exact absurd h (by simp [List.isEmpty])
    · intro h
      exact absurd (congrArg String.data h) (by simp)

theorem strNonempty_iff {s : String} : s.data.isEmpty = false ↔ s ≠ "" := by
  constructor
  · intro h he
    rw [he] at h
    exact absurd h (by simp)
  · intro h
    rcases hb : s.data.isEmpty with _ | _
    · rfl
    · exact absurd (strEmpty_iff.mp hb) h

theorem keepLog_iff (f : Filters) (log : LogEntry) :
    keepLog f log = true ↔
      (f.year ≠ "" → yearStrOf log.date = f.year) ∧
      (f.month ≠ "" → monthStrOf log.date = f.month) ∧
      (f.startDate ≠ "" → strLt log.date f.startDate = false) ∧
      (f.endDate ≠ "" → strLt f.endDate log.date = false) := by
  unfold keepLog
  split_ifs with c1 c2 c3 c4
  · simp only [Bool.and_eq_true, Bool.not_eq_true', bne_iff_ne, ne_eq] at c1
    rw [false_iff]
    intro hr
    exact c1.2 (hr.1 (strNonempty_iff.mp c1.1))
  · simp only [Bool.and_eq_true, Bool.not_eq_true', bne_iff_ne, ne_eq] at c2
    rw [false_iff]
    intro hr
    exact c2.2 (hr.2.1 (strNonempty_iff.mp c2.1))
  · simp only [Bool.and_eq_true, Bool.not_eq_true'] at c3
    rw [false_iff]
    intro hr
    rw [hr.2.2.1 (strNonempty_iff.mp c3.1)] at c3
    exact absurd c3.2 (by simp)
  · simp only [Bool.and_eq_true, Bool.not_eq_true'] at c4
    rw [false_iff]
    intro hr
    rw [hr.2.2.2 (strNonempty_iff.mp c4.1)] at c4
    exact absurd c4.2 (by simp)
  · refine iff_of_true rfl ⟨?_, ?_, ?_, ?_⟩
    · intro hne
      by_contra hmis
      exact c1 (by simp [Bool.and_eq_true, Bool.not_eq_true', bne_iff_ne,
        strNonempty_iff.mpr hne, hmis])
    · intro hne
      by_contra hmis
      exact c2 (by simp [Bool.and_eq_true, Bool.not_eq_true', bne_iff_ne,
        strNonempty_iff.mpr hne, hmis])
    · intro hne
      rcases hlt : strLt log.date f.startDate with _ | _
      · rfl
      · exact absurd (by simp [Bool.and_eq_true, strNonempty_iff.mpr hne, hlt]) c3
    · intro hne
      rcases hlt : strLt f.endDate log.date with _ | _
      · rfl
      · exact absurd (by simp [Bool.and_eq_true, strNonempty_iff.mpr hne, hlt]) c4

theorem mem_visible_iff (logs : List LogEntry) (o : SortOrder) (f : Filters) (e : LogEntry) :
    e ∈ (view logs o f).visible ↔ e ∈ logs ∧ keepLog f e = true := by
  show e ∈ (logs.filter (keepLog f)).insertionSort (sortRel o) ↔ _
  rw [List.mem_insertionSort, List.mem_filter]

theorem clockStr_data (h m : ℕ) :
    (clockStr h m).data
      = [digitChar (h / 10), digitChar (h % 10), ':', digitChar (m / 10), digitChar (m % 10)] :=
  rfl

theorem parseClock_clockStr {h m : ℕ} (hh : h < 100) (hm : m < 100) :
    parseClock (clockStr h m) = ((60 * h + m : ℕ) : ℤ) := by
  show (((digitVal (digitChar (h / 10)) * 10 + digitVal (digitChar (h % 10))) * 60
      + (digitVal (digitChar (m / 10)) * 10 + digitVal (digitChar (m % 10))) : ℕ) : ℤ)
    = ((60 * h + m : ℕ) : ℤ)
  rw [digitVal_digitChar (by omega), digitVal_digitChar (by omega),
    digitVal_digitChar (by omega), digitVal_digitChar (by omega)]
  omega

theorem calculateHours_some (tIn tOut : String) (h1 : tIn.data.isEmpty = false)
    (h2 : tOut.data.isEmpty = false) (date : String) (id : Option String) (brk : ℤ) :
    calculateHoursForLog ⟨id, date, some tIn, some tOut, brk⟩
      = ((parseClock tOut - parseClock tIn - brk : ℤ) : ℚ) / 60 := by
  unfold calculateHoursForLog
  simp only [falsyStr, h1, h2, Bool.or_self, Bool.false_eq_true, if_neg, not_false_eq_true,
    Option.getD_some]

end ViewLemmas

section DigitRenderLemmas

theorem parseFields_bounds {s : String} (h : validDateStr s = true) :
    (parseDateFields s).y < 10000 ∧ (parseDateFields s).m < 100 := by
  obtain ⟨c1, c2, c3, c4, c5, c6, c7, c8, hs, h1, h2, h3, h4, h5, h6, h7, h8, _⟩ :=
    validDateStr_shape h
  rw [parseDateFields_data hs]
  have hv1 := digitVal_lt h1
  have hv2 := digitVal_lt h2
  have hv3 := digitVal_lt h3
  have hv4 := digitVal_lt h4
  have hv5 := digitVal_lt h5
  have hv6 := digitVal_lt h6
  constructor <;> simp only <;> omega

theorem pad4_digits {n : ℕ} (h : n < 10000) :
    (pad4 n).data.length = 4 ∧ (pad4 n).data.all isDig = true := by
  refine ⟨rfl, ?_⟩
  simp only [pad4, mk_data, List.all_cons, List.all_nil, Bool.and_eq_true, Bool.and_true]
  exact ⟨isDig_digitChar (by omega), isDig_digitChar (by omega), isDig_digitChar (by omega),
    isDig_digitChar (by omega)⟩

theorem pad2_digits {n : ℕ} (h : n < 100) :
    (pad2 n).data.length = 2 ∧ (pad2 n).data.all isDig = true := by
  refine ⟨rfl, ?_⟩
  simp only [pad2, mk_data, List.all_cons, List.all_nil, Bool.and_eq_true, Bool.and_true]
  exact ⟨isDig_digitChar (by omega), isDig_digitChar (by omega)⟩

theorem year_month_take {s : String} (h : validDateStr s = true) :
    (yearStrOf s = "2024" ∧ monthStrOf s = "03") ↔ s.data.take 7 = "2024-03".data := by
  obtain ⟨c1, c2, c3, c4, c5, c6, c7, c8, hs, h1, h2, h3, h4, h5, h6, h7, h8, _⟩ :=
    validDateStr_shape h
  have hv1 := digitVal_lt h1
  have hv2 := digitVal_lt h2
  have hv3 := digitVal_lt h3
  have hv4 := digitVal_lt h4
  have hv5 := digitVal_lt h5
  have hv6 := digitVal_lt h6
  rw [yearStrOf, monthStrOf, parseDateFields_data hs, hs]
  constructor
  · rintro ⟨hy, hm⟩
    have h2024 : ("2024" : String) = pad4 2024 := rfl
    have h03 : ("03" : String) = pad2 3 := rfl
    have hY : digitVal c1 * 1000 + digitVal c2 * 100 + digitVal c3 * 10 + digitVal c4 = 2024 :=
      pad4_inj (by omega) (by norm_num) (hy.trans h2024)
    have hM : digitVal c5 * 10 + digitVal c6 = 3 :=
      pad2_inj (by omega) (by norm_num) (hm.trans h03)
    have e1 : c1 = '2' := by
      rw [← digitChar_digitVal h1, show digitVal c1 = 2 from by omega]
      rfl
    have e2 : c2 = '0' := by
      rw [← digitChar_digitVal h2, show digitVal c2 = 0 from by omega]
      rfl
    have e3 : c3 = '2' := by
      rw [← digitChar_digitVal h3, show digitVal c3 = 2 from by omega]
      rfl
    have e4 : c4 = '4' := by
      rw [← digitChar_digitVal h4, show digitVal c4 = 4 from by omega]
      rfl
    have e5 : c5 = '0' := by
      rw [← digitChar_digitVal h5, show digitVal c5 = 0 from by omega]
      rfl
    have e6 : c6 = '3' := by
      rw [← digitChar_digitVal h6, show digitVal c6 = 3 from by omega]
      rfl
    rw [e1, e2, e3, e4, e5, e6]
    rfl
  · intro hpre
    have hlist : [c1, c2, c3, c4, '-', c5, c6] = ['2', '0', '2', '4', '-', '0', '3'] := by
      have ht : ([c1, c2, c3, c4, '-', c5, c6, '-', c7, c8].take 7)
          = [c1, c2, c3, c4, '-', c5, c6] := rfl
      rw [ht] at hpre
      exact hpre
    simp only [List.cons.injEq, and_true] at hlist
    obtain ⟨e1, e2, e3, e4, _, e5, e6⟩ := hlist
    rw [e1, e2, e3, e4, e5, e6]
    constructor
    · show pad4 (digitVal '2' * 1000 + digitVal '0' * 100 + digitVal '2' * 10 + digitVal '4')
        = "2024"
      decide
    · show pad2 (digitVal '0' * 10 + digitVal '3') = "03"
      decide

end DigitRenderLemmas

section Claims

/-- C1: for every non-empty log collection and unset override, the weekly
total returned by the aggregator equals the sum of `hours()` over the
entries whose date exactly matches one of the Monday-through-Friday days
of the Monday-starting week containing `today` (weekdays without a
matching entry contribute 0), plus the holiday carry, rounded to 2
decimal places. -/
theorem c1_weekly_is_weekday_sum_plus_carry (logs : List LogEntry) (today : CivilDate)
    (carry : ℚ) (hne : logs ≠ []) (hv : ValidCivil today) (hy : 2 ≤ today.y) :
    (aggregate logs today none carry).weeklyHours
      = round2 (((weekdayDates today).map (dayHours logs)).sum + carry) := by
  rw [aggregate_none_weekly logs today carry hne, weekInterval_sum_eq_weekday_sum logs hv hy]

theorem c1_witness :
    (([⟨none, "2024-03-05", some "09:00", some "17:00", 30⟩] : List LogEntry) ≠ []) ∧
    ValidCivil ⟨2024, 3, 5⟩ ∧ 2 ≤ (⟨2024, 3, 5⟩ : CivilDate).y ∧
    (aggregate [⟨none, "2024-03-05", some "09:00", some "17:00", 30⟩]
        ⟨2024, 3, 5⟩ none 1).weeklyHours
      = round2 (((weekdayDates ⟨2024, 3, 5⟩).map
          (dayHours [⟨none, "2024-03-05", some "09:00", some "17:00", 30⟩])).sum + 1) :=
  ⟨by simp, by decide, by decide,
    c1_weekly_is_weekday_sum_plus_carry _ _ _ (by simp) (by decide) (by decide)⟩

/-- C2: when both clock times are present, `hours` is the minute-of-day
difference `timeOut − timeIn` minus `breakMinutes`, divided by 60 — with
no rounding and no clamping, whatever the date; in particular
09:00–17:00 with a 30-minute break gives 7.5 hours and 17:00–09:00 with
no break gives −8 (negative results are produced, not rejected). -/
theorem c2_hours_formula :
    (∀ (id : Option String) (date : String) (h1 m1 h2 m2 : ℕ) (brk : ℤ),
        h1 < 24 → m1 < 60 → h2 < 24 → m2 < 60 →
        calculateHoursForLog ⟨id, date, some (clockStr h1 m1), some (clockStr h2 m2), brk⟩
          = (((60 * h2 + m2 : ℕ) : ℚ) - ((60 * h1 + m1 : ℕ) : ℚ) - (brk : ℚ)) / 60) ∧
    calculateHoursForLog ⟨none, "2024-01-01", some "09:00", some "17:00", 30⟩ = 15 / 2 ∧
    calculateHoursForLog ⟨none, "2024-01-01", some "17:00", some "09:00", 0⟩ = -8 := by
  refine ⟨?_, ?_, ?_⟩
  · intro id date h1 m1 h2 m2 brk hh1 hm1 hh2 hm2
    rw [calculateHours_some (clockStr h1 m1) (clockStr h2 m2) rfl rfl]
    rw [parseClock_clockStr (by omega) (by omega), parseClock_clockStr (by omega) (by omega)]
    push_cast
    ring
  · rw [calculateHours_some "09:00" "17:00" rfl rfl]
    norm_num [show parseClock "17:00" = 1020 from rfl, show parseClock "09:00" = 540 from rfl]
  · rw [calculateHours_some "17:00" "09:00" rfl rfl]
    norm_num [show parseClock "17:00" = 1020 from rfl, show parseClock "09:00" = 540 from rfl]

theorem c2_witness :
    (0 : ℕ) < 24 ∧
    calculateHoursForLog
        ⟨none, "2024-06-01", some (clockStr 9 0), some (clockStr 17 0), 30⟩
      = (((60 * 17 + 0 : ℕ) : ℚ) - ((60 * 9 + 0 : ℕ) : ℚ) - ((30 : ℤ) : ℚ)) / 60 :=
  ⟨by decide,
    c2_hours_formula.1 none "2024-06-01" 9 0 17 0 30 (by decide) (by decide) (by decide)
      (by decide)⟩

/-- C3: whenever the override is set, the aggregator's weekly result is
the override value verbatim, for every log collection and carry. -/
theorem c3_override_verbatim (logs : List LogEntry) (today : CivilDate) (m carry : ℚ) :
    (aggregate logs today (some m) carry).weeklyHours = m := rfl

/-- C4: with the override unset (as it is after any log mutation), an
empty log collection makes the aggregator return weekly 0 regardless of
the carry, and the holiday carry is 0 after the run (the reset side
effect; the carry is non-negative by the data model). -/
theorem c4_empty_collection (logs : List LogEntry) (today : CivilDate) (carry : ℚ)
    (hempty : logs = []) (hc : 0 ≤ carry) :
    (aggregate logs today none carry).weeklyHours = 0 ∧
    (aggregate logs today none carry).carryAfter = 0 := by
  subst hempty
  constructor
  · have hw : (aggregate [] today none carry).weeklyHours = round2 0 := rfl
    rw [hw, round2]
    norm_num
  · have hca : (aggregate [] today none carry).carryAfter
        = if (List.length ([] : List LogEntry) == 0 && decide (0 < carry)) then 0 else carry :=
      rfl
    rw [hca]
    simp only [List.length_nil, beq_self_eq_true, Bool.true_and]
    by_cases hpos : 0 < carry
    · simp [hpos]
    · rw [if_neg (by simp [hpos])]
      exact le_antisymm (not_lt.mp hpos) hc

theorem c4_witness :
    (([] : List LogEntry) = []) ∧ (0 : ℚ) ≤ 5 ∧
    (aggregate [] ⟨2024, 3, 5⟩ none 5).weeklyHours = 0 ∧
    (aggregate [] ⟨2024, 3, 5⟩ none 5).carryAfter = 0 :=
  ⟨rfl, by decide, c4_empty_collection [] ⟨2024, 3, 5⟩ 5 rfl (by decide)⟩

/-- C5: whenever the override is set, the aggregator leaves the holiday
carry unchanged — for every log collection, including the empty one —
because the override branch returns before the carry-reset branch. -/
theorem c5_override_preserves_carry (logs : List LogEntry) (today : CivilDate) (m carry : ℚ) :
    (aggregate logs today (some m) carry).carryAfter = carry := rfl

/-- C6: an entry is visible exactly when it is in the collection and
satisfies every set filter condition (unset conditions are skipped):
year match, month match, date at least `startDate`, date at most
`endDate`, string comparisons being lexicographic; in particular, with
year "2024" and month "03" the visible entries are exactly those whose
date starts with "2024-03". -/
theorem c6_filter_characterisation :
    (∀ (logs : List LogEntry) (o : SortOrder) (f : Filters) (e : LogEntry),
        e ∈ (view logs o f).visible ↔
          e ∈ logs ∧
          (f.year ≠ "" → yearStrOf e.date = f.year) ∧
          (f.month ≠ "" → monthStrOf e.date = f.month) ∧
          (f.startDate ≠ "" → strLt e.date f.startDate = false) ∧
          (f.endDate ≠ "" → strLt f.endDate e.date = false)) ∧
    (∀ (logs : List LogEntry) (o : SortOrder) (e : LogEntry),
        (∀ l ∈ logs, validDateStr l.date = true) →
        (e ∈ (view logs o ⟨"2024", "03", "", ""⟩).visible ↔
          e ∈ logs ∧ e.date.data.take 7 = "2024-03".data)) := by
  constructor
  · intro logs o f e
    rw [mem_visible_iff, keepLog_iff]
  · intro logs o e hval
    rw [mem_visible_iff, keepLog_iff]
    constructor
    · rintro ⟨hmem, hy, hm, _, _⟩
      exact ⟨hmem, (year_month_take (hval e hmem)).mp
        ⟨hy (by decide), hm (by decide)⟩⟩
    · rintro ⟨hmem, hpre⟩
      obtain ⟨hy, hm⟩ := (year_month_take (hval e hmem)).mpr hpre
      exact ⟨hmem, fun _ => hy, fun _ => hm, fun hc => absurd rfl hc, fun hc => absurd rfl hc⟩

theorem c6_witness :
    (∀ l ∈ ([⟨none, "2024-03-05", some "09:00", some "17:00", 30⟩,
        ⟨none, "2023-12-31", none, none, 0⟩] : List LogEntry), validDateStr l.date = true) ∧
    ((⟨none, "2024-03-05", some "09:00", some "17:00", 30⟩ : LogEntry)
        ∈ (view [⟨none, "2024-03-05", some "09:00", some "17:00", 30⟩,
            ⟨none, "2023-12-31", none, none, 0⟩] SortOrder.asc
            ⟨"2024", "03", "", ""⟩).visible ↔
      (⟨none, "2024-03-05", some "09:00", some "17:00", 30⟩ : LogEntry)
          ∈ ([⟨none, "2024-03-05", some "09:00", some "17:00", 30⟩,
            ⟨none, "2023-12-31", none, none, 0⟩] : List LogEntry) ∧
        ("2024-03-05" : String).data.take 7 = "2024-03".data) :=
  ⟨by decide, c6_filter_characterisation.2 _ SortOrder.asc _ (by decide)⟩

/-- C7: on a collection whose entries carry pairwise-distinct valid
dates, the visible list under ascending sort (numeric date comparison)
and the visible list under descending sort (lexicographic string
comparison), both with empty filters, are reverses of one another. -/
theorem c7_asc_desc_reverse (logs : List LogEntry)
    (hval : ∀ l ∈ logs, validDateStr l.date = true)
    (hnd : (logs.map fun l => l.date).Nodup) :
    (view logs SortOrder.asc ⟨"", "", "", ""⟩).visible
      = ((view logs SortOrder.desc ⟨"", "", "", ""⟩).visible).reverse := by
  have hfilter : logs.filter (keepLog ⟨"", "", "", ""⟩) = logs :=
    List.filter_eq_self.mpr fun a _ => rfl
  show (logs.filter (keepLog ⟨"", "", "", ""⟩)).insertionSort (sortRel .asc)
      = ((logs.filter (keepLog ⟨"", "", "", ""⟩)).insertionSort (sortRel .desc)).reverse
  rw [hfilter]
  haveI : IsTotal LogEntry (sortRel .asc) := ⟨sortRel_total _⟩
  haveI : IsTrans LogEntry (sortRel .asc) := ⟨fun a b c => sortRel_transitive _⟩
  haveI : IsTotal LogEntry (sortRel .desc) := ⟨sortRel_total _⟩
  haveI : IsTrans LogEntry (sortRel .desc) := ⟨fun a b c => sortRel_transitive _⟩
  apply eq_of_perm_of_pairwise (R := sortRel SortOrder.asc)
  · exact (List.perm_insertionSort _ _).trans
      ((List.perm_insertionSort (sortRel .desc) logs).symm.trans
        (List.reverse_perm _).symm)
  · exact List.sorted_insertionSort _ _
  · rw [List.pairwise_reverse]
    have hD := List.sorted_insertionSort (sortRel .desc) logs
    refine List.Pairwise.imp_of_mem ?_ hD
    intro a b ha hb hr
    have hva := hval a ((List.mem_insertionSort _).mp ha)
    have hvb := hval b ((List.mem_insertionSort _).mp hb)
    show dateValue b.date ≤ dateValue a.date
    refine Nat.le_of_not_lt fun hlt => ?_
    have := (dateValue_lt_iff hva hvb).mp hlt
    rw [hr] at this
    exact absurd this (by simp)
  · intro a ha b hb hab hba
    have ha' : a ∈ logs := (List.mem_insertionSort _).mp ha
    have hb' : b ∈ logs := by
      have := ((List.perm_insertionSort (sortRel .asc) logs).mem_iff).mp hb
      exact this
    have hda := hval a ha'
    have hdb := hval b hb'
    have heq : dateValue a.date = dateValue b.date := le_antisymm hab hba
    have hfe : parseDateFields a.date = parseDateFields b.date :=
      civil_eq_of_days0_eq (parseFields_valid hda) (parseFields_valid hdb) heq
    exact List.inj_on_of_nodup_map hnd ha' hb' (date_str_eq_of_fields_eq hda hdb hfe)

theorem c7_witness :
    (∀ l ∈ ([⟨none, "2024-03-05", some "09:00", some "17:00", 30⟩,
        ⟨none, "2023-12-31", none, none, 0⟩] : List LogEntry), validDateStr l.date = true) ∧
    (([⟨none, "2024-03-05", some "09:00", some "17:00", 30⟩,
        ⟨none, "2023-12-31", none, none, 0⟩] : List LogEntry).map fun l => l.date).Nodup ∧
    (view [⟨none, "2024-03-05", some "09:00", some "17:00", 30⟩,
        ⟨none, "2023-12-31", none, none, 0⟩] SortOrder.asc ⟨"", "", "", ""⟩).visible
      = ((view [⟨none, "2024-03-05", some "09:00", some "17:00", 30⟩,
          ⟨none, "2023-12-31", none, none, 0⟩] SortOrder.desc ⟨"", "", "", ""⟩).visible).reverse :=
  ⟨by decide, by decide, c7_asc_desc_reverse _ (by decide) (by decide)⟩

/-- C8: the years output is the duplicate-free set of 4-digit years
present across all logs sorted descending, the months output the
duplicate-free set of 2-digit months sorted ascending; both are computed
from the unfiltered collection and are unaffected by the active filter
and by the sort direction. -/
theorem c8_years_months_characterisation :
    (∀ (logs : List LogEntry) (o o' : SortOrder) (f f' : Filters),
        (view logs o f).years = (view logs o' f').years ∧
        (view logs o f).months = (view logs o' f').months) ∧
    (∀ (logs : List LogEntry) (o : SortOrder) (f : Filters),
        (view logs o f).years.Nodup ∧
        (view logs o f).months.Nodup ∧
        (∀ x, x ∈ (view logs o f).years ↔ x ∈ logs.map fun l => yearStrOf l.date) ∧
        (∀ x, x ∈ (view logs o f).months ↔ x ∈ logs.map fun l => monthStrOf l.date) ∧
        (view logs o f).years.Pairwise strGe ∧
        (view logs o f).months.Pairwise strLe ∧
        ((∀ l ∈ logs, validDateStr l.date = true) →
          (∀ x ∈ (view logs o f).years, x.data.length = 4 ∧ x.data.all isDig = true) ∧
          (∀ x ∈ (view logs o f).months, x.data.length = 2 ∧ x.data.all isDig = true))) := by
  constructor
  · intro logs o o' f f'
    exact ⟨rfl, rfl⟩
  · intro logs o f
    haveI : IsTotal String strGe := ⟨strGe_total⟩
    haveI : IsTrans String strGe := ⟨fun a b c => strGe_transitive⟩
    haveI : IsTotal String strLe := ⟨strLe_total⟩
    haveI : IsTrans String strLe := ⟨fun a b c => strLe_transitive⟩
    refine ⟨?_, ?_, ?_, ?_, ?_, ?_, ?_⟩
    · exact (List.perm_insertionSort strGe _).nodup_iff.mpr (distinctList_nodup _)
    · exact (List.perm_insertionSort strLe _).nodup_iff.mpr (distinctList_nodup _)
    · intro x
      show x ∈ (distinctList (logs.map fun l => yearStrOf l.date)).insertionSort strGe ↔ _
      rw [List.mem_insertionSort, mem_distinctList]
    · intro x
      show x ∈ (distinctList (logs.map fun l => monthStrOf l.date)).insertionSort strLe ↔ _
      rw [List.mem_insertionSort, mem_distinctList]
    · exact List.sorted_insertionSort strGe _
    · exact List.sorted_insertionSort strLe _
    · intro hval
      constructor
      · intro x hx
        have hx' : x ∈ logs.map fun l => yearStrOf l.date := by
          have := (List.mem_insertionSort _).mp hx
          exact (mem_distinctList _ x).mp this
        obtain ⟨l, hl, hxe⟩ := List.mem_map.mp hx'
        have hb := (parseFields_bounds (hval l hl)).1
        rw [← hxe]
        exact pad4_digits hb
      · intro x hx
        have hx' : x ∈ logs.map fun l => monthStrOf l.date := by
          have := (List.mem_insertionSort _).mp hx
          exact (mem_distinctList _ x).mp this
        obtain ⟨l, hl, hxe⟩ := List.mem_map.mp hx'
        have hb := (parseFields_bounds (hval l hl)).2
        rw [← hxe]
        exact pad2_digits hb

theorem c8_witness :
    (∀ l ∈ ([⟨none, "2024-03-05", some "09:00", some "17:00", 30⟩] : List LogEntry),
        validDateStr l.date = true) ∧
    (∀ x ∈ (view [⟨none, "2024-03-05", some "09:00", some "17:00", 30⟩]
        SortOrder.asc ⟨"", "", "", ""⟩).years, x.data.length = 4 ∧ x.data.all isDig = true) ∧
    (∀ x ∈ (view [⟨none, "2024-03-05", some "09:00", some "17:00", 30⟩]
        SortOrder.asc ⟨"", "", "", ""⟩).months, x.data.length = 2 ∧ x.data.all isDig = true) :=
  ⟨by decide,
    ((c8_years_months_characterisation.2 _ SortOrder.asc _).2.2.2.2.2.2 (by decide)).1,
    ((c8_years_months_characterisation.2 _ SortOrder.asc _).2.2.2.2.2.2 (by decide)).2⟩

/-- C9: a log entry with a missing or empty `timeIn` or `timeOut`
contributes 0 hours, regardless of its date and break minutes; no error
is signalled. -/
theorem c9_missing_time_is_zero (e : LogEntry)
    (h : e.timeIn = none ∨ e.timeIn = some "" ∨ e.timeOut = none ∨ e.timeOut = some "") :
    calculateHoursForLog e = 0 := by
  unfold calculateHoursForLog
  have hf : (falsyStr e.timeIn || falsyStr e.timeOut) = true := by
    rcases h with h | h | h | h <;> rw [h] <;> simp [falsyStr]
  rw [if_pos hf]

theorem c9_witness :
    ((⟨none, "2024-01-01", some "", some "17:00", 30⟩ : LogEntry).timeIn = some ""
        ∨ (⟨none, "2024-01-01", some "", some "17:00", 30⟩ : LogEntry).timeIn = none
        ∨ (⟨none, "2024-01-01", some "", some "17:00", 30⟩ : LogEntry).timeOut = none
        ∨ (⟨none, "2024-01-01", some "", some "17:00", 30⟩ : LogEntry).timeOut = some "") ∧
    calculateHoursForLog ⟨none, "2024-01-01", some "", some "17:00", 30⟩ = 0 :=
  ⟨Or.inl rfl, c9_missing_time_is_zero _ (Or.inr (Or.inl rfl))⟩

/-- C10: the aggregator's results are unchanged when every log entry
whose date already occurred earlier in the collection is dropped: only
the first entry of each date is counted, both for the daily total and
for each weekday of the week, and later same-date entries contribute
nothing. -/
theorem c10_first_match_only (logs : List LogEntry) (today : CivilDate) (ov : Option ℚ)
    (carry : ℚ) :
    aggregate (dedupByDate logs) today ov carry = aggregate logs today ov carry := by
  cases ov with
  | some m =>
    simp only [aggregate, findLogFor_dedupByDate]
  | none =>
    cases logs with
    | nil => rw [show dedupByDate ([] : List LogEntry) = [] from rfl]
    | cons l rest =>
      have hne : dedupByDate (l :: rest) ≠ [] := by
        rw [ne_eq, dedupByDate_nil_iff]
        simp
      have hlen : 0 < (dedupByDate (l :: rest)).length := List.length_pos.mpr hne
      have hlen2 : 0 < (l :: rest).length := by simp
      have hbeq : ((dedupByDate (l :: rest)).length == 0) = false := by
        simp only [beq_eq_false_iff_ne, ne_eq]
        omega
      have hbeq2 : ((l :: rest).length == 0) = false := by
        simp
      simp only [aggregate, findLogFor_dedupByDate, hlen, hlen2, hbeq, hbeq2, if_pos,
        Bool.false_and]

end Claims

end HourLogger
